import Mathlib

/-!
Verification development for the blacklist engine of gtk-recent-scrubber
(`src/gtk_cleanup.py`, class `Blacklist`).

The `Blacklist` class keeps an in-memory list `_contents` of pairs
`(hex_digest, prefix_length)` and offers `_hash_prefix`, `__contains__`,
`index`, `add`, `remove`, `remove_all`, `load` and `save`.  Below, each
Python method is shallowly embedded as an executable Lean function over
`List Entry`, with Python strings modelled as Lean `String` (a list of
Unicode code points, exactly Python 3's `str`), stored lengths as `Int`
(Python's unbounded `int`), and the external `hashlib.sha1(...).hexdigest()`
primitive abstracted as an explicit function parameter
`H : List Nat → String` from UTF-8 byte sequences to digest strings
(the engine's logic never inspects digests beyond equality).
-/

namespace Blacklist

/-- Entry of `Blacklist._contents`: a `(hex_digest, prefix_length)` pair,
in exactly the tuple order the Python code stores (`_hash_prefix` returns
`(hexdigest, len(prefix))`). -/
abbrev Entry : Type := String × Int

/-- UTF-8 encoding of a single Unicode code point (what Python's
`str.encode('utf8')` emits per character). -/
def utf8Char (c : Nat) : List Nat :=
  if c < 0x80 then [c]
  else if c < 0x800 then [0xC0 + c / 64, 0x80 + c % 64]
  else if c < 0x10000 then
    [0xE0 + c / 4096, 0x80 + c / 64 % 64, 0x80 + c % 64]
  else
    [0xF0 + c / 262144, 0x80 + c / 4096 % 64, 0x80 + c / 64 % 64,
     0x80 + c % 64]

/-- UTF-8 encoding of a whole string: Python's `s.encode('utf8')`. -/
def encodeUTF8 (s : String) : List Nat :=
  (s.data.map fun c => utf8Char c.toNat).flatten

/-- Python slice `s[:limit]` (with `limit=None` meaning the whole string).
Python slices count Unicode code points; a negative stop counts from the
end and clamps at zero. -/
def pySlice (s : String) (limit : Option Int) : String :=
  match limit with
  | none => s
  | some k =>
    if 0 ≤ k then ⟨s.data.take k.toNat⟩
    else ⟨s.data.take (s.length - (-k).toNat)⟩

/-- Embedding of `Blacklist._hash_prefix(prefix, limit)`:
`prefix = prefix[:limit]; return sha1(prefix.encode('utf8')).hexdigest(), len(prefix)`.
Note that the Python code truncates the *string* (code points) before
encoding, and returns `len` of the truncated *string*. -/
def hashPfx (H : List Nat → String) (p : String) (limit : Option Int) :
    Entry :=
  (H (encodeUTF8 (pySlice p limit)), ((pySlice p limit).length : Int))

/-- Embedding of the scan loop of `Blacklist.index(uri)`, returning the
position relative to the start of the remaining list.  The Python loop
enumerates absolute positions; mapping `+1` over the recursive call is the
same function.  The loop breaks (returns `none`) at the first entry whose
stored length exceeds `len(uri)`, returns the position at the first entry
whose digest equals `_hash_prefix(uri, prefix_len)[0]`, and raises
`IndexError` (here `none`) when the scan falls off the end. -/
def indexFrom (H : List Nat → String) (uri : String) :
    List Entry → Option Nat
  | [] => none
  | e :: rest =>
    if (uri.length : Int) < e.2 then none
    else if e.1 == (hashPfx H uri (some e.2)).1 then some 0
    else (indexFrom H uri rest).map (· + 1)

/-- Embedding of `Blacklist.index(uri)` (raising `IndexError` becomes
`none`). -/
def index (H : List Nat → String) (bl : List Entry) (uri : String) :
    Option Nat :=
  indexFrom H uri bl

/-- Embedding of `Blacklist.__contains__(uri)`: `index` success. -/
def contains (H : List Nat → String) (bl : List Entry) (uri : String) :
    Bool :=
  (index H bl uri).isSome

/-- Stable insertion of an entry into a list sorted ascending by the
length component (helper for `sortByLen`). -/
def insertByLen (e : Entry) : List Entry → List Entry
  | [] => [e]
  | a :: rest => if a.2 < e.2 then a :: insertByLen e rest else e :: a :: rest

/-- Stable sort by the length component.  Embeds Python's
`list.sort(key=lambda x: x[1])`: Python's Timsort is stable, and for a
fixed key every stable sort computes the same output list, so this stable
insertion sort is extensionally the same function. -/
def sortByLen (l : List Entry) : List Entry :=
  l.foldr insertByLen []

/-- Embedding of `Blacklist.add(prefix)`: if the string is already
matched (`prefix in self`), do nothing; otherwise append
`_hash_prefix(prefix)` and re-sort by length. -/
def add (H : List Nat → String) (bl : List Entry) (p : String) :
    List Entry :=
  if contains H bl p then bl else sortByLen (bl ++ [hashPfx H p none])

/-- Python `list.pop(i)` result list (the list with the element at
position `i` removed). -/
def popAt : List Entry → Nat → List Entry
  | [], _ => []
  | _ :: rest, 0 => rest
  | a :: rest, n + 1 => a :: popAt rest n

/-- Embedding of `Blacklist.remove(uri)`: pop the first match; `none`
models the `ValueError` raised when nothing matches. -/
def remove (H : List Nat → String) (bl : List Entry) (uri : String) :
    Option (List Entry) :=
  (index H bl uri).map (popAt bl)

/-- Any successful `indexFrom` position is inside the list. -/
theorem indexFrom_lt_length (H : List Nat → String) (uri : String) :
    ∀ (l : List Entry) (i : Nat), indexFrom H uri l = some i → i < l.length := by
  intro l
  induction l with
  | nil => intro i h; simp [indexFrom] at h
  | cons e rest ih =>
    intro i h
    rw [indexFrom] at h
    split at h
    · exact absurd h (by simp)
    · split at h
      · cases h; simp
      · obtain ⟨j, hj, hji⟩ := Option.map_eq_some'.mp h
        have := ih j hj
        simp only [List.length_cons]
        omega

/-- Length of `popAt` on a valid position. -/
theorem length_popAt : ∀ (l : List Entry) (i : Nat), i < l.length →
    (popAt l i).length = l.length - 1 := by
  intro l
  induction l with
  | nil => intro i h; simp at h
  | cons a rest ih =>
    intro i h
    cases i with
    | zero => simp [popAt]
    | succ n =>
      simp [popAt]
      have : n < rest.length := by simpa using h
      rw [ih n this]
      omega

/-- Embedding of `Blacklist.remove_all(uri)`: repeatedly `remove` until
the `ValueError` (no match) is raised, which is caught and swallowed. -/
def remove_all (H : List Nat → String) (bl : List Entry) (uri : String) :
    List Entry :=
  match h : index H bl uri with
  | none => bl
  | some i => remove_all H (popAt bl i) uri
termination_by bl.length
decreasing_by
  have hi := indexFrom_lt_length H uri bl i h
  rw [length_popAt bl i hi]
  omega

/-- Python whitespace characters for `str.strip()` / `str.split(None)`
(ASCII subset; the repository's data files are ASCII hex digests and
decimal integers). -/
def isPySpace (c : Char) : Bool :=
  c = ' ' || c = '\t' || c = '\n' || c = '\r' || c = '\x0b' || c = '\x0c'

/-- Python `str.strip()`: drop leading and trailing whitespace. -/
def pyStrip (s : String) : String :=
  ⟨((s.data.dropWhile isPySpace).reverse.dropWhile isPySpace).reverse⟩

/-- Python `str.startswith('#')`. -/
def startsWithHash (s : String) : Bool :=
  match s.data with
  | '#' :: _ => true
  | _ => false

/-- Helper for `wsTokens`: split a character list at whitespace runs,
accumulating the current (reversed) token. -/
def splitWsAux : List Char → List Char → List (List Char)
  | [], acc => if acc.isEmpty then [] else [acc.reverse]
  | c :: rest, acc =>
    if isPySpace c then
      if acc.isEmpty then splitWsAux rest []
      else acc.reverse :: splitWsAux rest []
    else splitWsAux rest (c :: acc)

/-- Whitespace-separated tokens of a string.  The Python code runs
`row.strip().split(None, 2)` and tuple-unpacks into exactly two names, so
a row parses only when it has exactly two whitespace-separated fields;
with `maxsplit=2` a row of three or more fields yields three elements
either way, and the unpack raises `ValueError`.  Modelling the full
token list (and requiring exactly two) is therefore the same predicate. -/
def wsTokens (s : String) : List String :=
  (splitWsAux s.data []).map fun l => ⟨l⟩

/-- Helper for `pyInt`: value of a nonempty all-digit character list. -/
def digitsValAux : List Char → Nat → Option Nat
  | [], acc => some acc
  | c :: rest, acc =>
    if c.isDigit then digitsValAux rest (acc * 10 + (c.toNat - 48))
    else none

/-- Python `int(s)` on an already-stripped token: optional sign followed
by at least one ASCII decimal digit (`none` models the `ValueError`). -/
def pyInt (s : String) : Option Int :=
  match s.data with
  | [] => none
  | '+' :: rest =>
    if rest.isEmpty then none else (digitsValAux rest 0).map Int.ofNat
  | '-' :: rest =>
    if rest.isEmpty then none else
      (digitsValAux rest 0).map fun n => -(n : Int)
  | l => (digitsValAux l 0).map Int.ofNat

/-- Embedding of the parsing loop of `Blacklist.load`, carried out on the
list of raw lines of the file.  `seen` and `acc` are the loop's `seen`
and `results` accumulators (`acc` reversed for structural recursion);
`none` models the `ValueError` that aborts the whole parse.  Faithful
details: the duplicate check is `digest not in seen` — comparing the bare
digest against `seen` entries of the form `"%s,%d" % (digest, count)` —
and it runs *before* `int(count)` is evaluated. -/
def parseLines : List String → List String → List Entry →
    Option (List Entry)
  | [], _, acc => some acc.reverse
  | row :: rest, seen, acc =>
    let r := pyStrip row
    if startsWithHash r || r = "" then parseLines rest seen acc
    else
      match wsTokens r with
      | [d, c] =>
        if seen.contains d then parseLines rest seen acc
        else
          match pyInt c with
          | none => none
          | some n =>
            parseLines rest (seen ++ [d ++ "," ++ toString n]) ((d, n) :: acc)
      | _ => none

/-- Outcome of a call to `Blacklist.load`: a normal boolean return, or an
escaping `OSError`/`IOError` (the only exception class `load` catches is
`ValueError`). -/
inductive LoadOutcome where
  | ret : Bool → LoadOutcome
  | ioError : LoadOutcome
deriving DecidableEq

/-- State of the backing store as `load` finds it: missing
(`os.path.exists` false), present but unreadable (`open`/read raises
`OSError`), or present with readable text content given as its lines. -/
inductive Store where
  | absent : Store
  | unreadable : Store
  | content : List String → Store

/-- Embedding of `Blacklist.load()`: given the prior in-memory contents
and the store state, return the call's outcome and the new in-memory
contents.  A missing file returns `False`; a parse failure
(`ValueError`) is caught, logged, and returns `False` leaving the
contents untouched; a successful parse sorts the results by length and
installs them; an unreadable file propagates the `OSError`. -/
def load (bl : List Entry) (store : Store) : LoadOutcome × List Entry :=
  match store with
  | .absent => (.ret false, bl)
  | .unreadable => (.ioError, bl)
  | .content lines =>
    match parseLines lines [] [] with
    | none => (.ret false, bl)
    | some results => (.ret true, sortByLen results)

/-- Result of a Python call that either returns a value normally or lets
an exception escape to the caller. -/
inductive PyResult (α : Type) where
  | ret : α → PyResult α
  | exn : PyResult α
deriving DecidableEq

/-- Outcome of the file-write attempt inside `Blacklist.save`. -/
inductive WriteOutcome where
  | ok : WriteOutcome
  | ioFail : WriteOutcome
deriving DecidableEq

/-- Stable descending insertion by length (helper for `sortByLenDesc`). -/
def insertByLenDesc (e : Entry) : List Entry → List Entry
  | [] => [e]
  | a :: rest =>
    if e.2 < a.2 then a :: insertByLenDesc e rest else e :: a :: rest

/-- Stable descending sort by length: Python's
`sorted(contents, key=lambda x: x[1], reverse=True)` (stable, equal keys
keep their original order). -/
def sortByLenDesc (l : List Entry) : List Entry :=
  l.foldr insertByLenDesc []

/-- Lines written to the store by a successful `Blacklist.save()`:
entries reverse-sorted by length, each formatted `'%s\t%d\n' % row`. -/
def savedLines (bl : List Entry) : List String :=
  (sortByLenDesc bl).map fun e => e.1 ++ "\t" ++ toString e.2 ++ "\n"

/-- Embedding of `Blacklist.save()`: the whole body is wrapped in
`try: ... return True / except Exception: log; return False`, so a write
failure is caught, logged, and surfaced as the normal return value
`False`; no exception ever escapes. -/
def save (bl : List Entry) (w : WriteOutcome) : PyResult Bool :=
  match w with
  | .ok => .ret true
  | .ioFail => .ret false

/-- Matching rule as the specification words it: an entry `(digest, len)`
matches `uri` iff `len <= length(uri)` and the digest of `uri` truncated
to `len` equals the stored digest. -/
def specMatches (H : List Nat → String) (uri : String) (e : Entry) : Bool :=
  decide (e.2 ≤ (uri.length : Int)) && (e.1 == (hashPfx H uri (some e.2)).1)

/-- Position of the first entry satisfying `specMatches`, scanning the
whole list with no early exit — the specification's description of
`index`. -/
def specIndex (H : List Nat → String) (bl : List Entry) (uri : String) :
    Option Nat :=
  match bl with
  | [] => none
  | e :: rest =>
    if specMatches H uri e then some 0
    else (specIndex H rest uri).map (· + 1)

/-- Sortedness (ascending by the length component) as an executable
chain check. -/
def sortedByLen : List Entry → Bool
  | [] => true
  | [_] => true
  | a :: b :: rest => decide (a.2 ≤ b.2) && sortedByLen (b :: rest)

/-- Tail of a sorted list is sorted. -/
theorem sortedByLen_tail {a : Entry} {l : List Entry}
    (h : sortedByLen (a :: l) = true) : sortedByLen l = true := by
  cases l with
  | nil => rfl
  | cons b rest =>
    rw [sortedByLen, Bool.and_eq_true] at h
    exact h.2

/-- Head of a sorted list is below every later entry. -/
theorem sortedByLen_head_le {a : Entry} {l : List Entry}
    (h : sortedByLen (a :: l) = true) : ∀ e ∈ l, a.2 ≤ e.2 := by
  induction l generalizing a with
  | nil => intro e he; simp at he
  | cons b rest ih =>
    intro e he
    rw [sortedByLen, Bool.and_eq_true, decide_eq_true_eq] at h
    rcases List.mem_cons.mp he with rfl | he2
    · exact h.1
    · exact le_trans h.1 (ih h.2 e he2)

/-- In a list where nothing satisfies the predicate, `specIndex` fails. -/
theorem specIndex_eq_none_of_all_false (H : List Nat → String)
    (uri : String) :
    ∀ l : List Entry, (∀ e ∈ l, specMatches H uri e = false) →
      specIndex H l uri = none := by
  intro l
  induction l with
  | nil => intro _; rfl
  | cons a rest ih =>
    intro hall
    rw [specIndex, hall a (List.mem_cons_self a rest)]
    simp only [Bool.false_eq_true, if_false]
    rw [ih fun e he => hall e (List.mem_cons_of_mem a he)]
    rfl

/-- On a sorted list the early-exit scan of `index` agrees with the
specification's full scan `specIndex`. -/
theorem indexFrom_eq_specIndex (H : List Nat → String) (uri : String) :
    ∀ l : List Entry, sortedByLen l = true →
      indexFrom H uri l = specIndex H l uri := by
  intro l
  induction l with
  | nil => intro _; rfl
  | cons e rest ih =>
    intro hs
    rw [indexFrom, specIndex]
    by_cases h1 : (uri.length : Int) < e.2
    · rw [if_pos h1]
      have hm : specMatches H uri e = false := by
        unfold specMatches
        rw [decide_eq_false (not_le.mpr h1)]
        rfl
      rw [hm]
      simp only [Bool.false_eq_true, if_false]
      have : specIndex H rest uri = none := by
        apply specIndex_eq_none_of_all_false
        intro f hf
        unfold specMatches
        have : (uri.length : Int) < f.2 :=
          lt_of_lt_of_le h1 (sortedByLen_head_le hs f hf)
        rw [decide_eq_false (not_le.mpr this)]
        rfl
      rw [this]
      rfl
    · rw [if_neg h1]
      by_cases h2 : e.1 == (hashPfx H uri (some e.2)).1
      · rw [if_pos h2]
        have hm : specMatches H uri e = true := by
          unfold specMatches
          rw [decide_eq_true (not_lt.mp h1), h2]
          rfl
        rw [if_pos hm]
      · rw [if_neg h2]
        have hm : specMatches H uri e = false := by
          unfold specMatches
          rw [Bool.eq_false_iff.mpr h2, Bool.and_false]
        rw [hm]
        simp only [Bool.false_eq_true, if_false]
        rw [ih (sortedByLen_tail hs)]

/-- `specIndex` succeeds exactly when some entry matches. -/
theorem specIndex_isSome_iff (H : List Nat → String) (uri : String) :
    ∀ l : List Entry,
      (specIndex H l uri).isSome = true ↔
        ∃ e ∈ l, specMatches H uri e = true := by
  intro l
  induction l with
  | nil => simp [specIndex]
  | cons a rest ih =>
    rw [specIndex]
    by_cases h : specMatches H uri a = true
    · simp [h]
    · rw [if_neg h]
      have hm : ((specIndex H rest uri).map (· + 1)).isSome
          = (specIndex H rest uri).isSome := by
        cases specIndex H rest uri <;> rfl
      rw [hm, ih]
      constructor
      · rintro ⟨e, he, hm⟩
        exact ⟨e, List.mem_cons_of_mem a he, hm⟩
      · rintro ⟨e, he, hm⟩
        rcases List.mem_cons.mp he with rfl | he2
        · exact absurd hm h
        · exact ⟨e, he2, hm⟩

/-- Membership is preserved by stable insertion. -/
theorem mem_insertByLen {a e : Entry} :
    ∀ l : List Entry, (a ∈ insertByLen e l ↔ a = e ∨ a ∈ l) := by
  intro l
  induction l with
  | nil => simp [insertByLen]
  | cons b rest ih =>
    rw [insertByLen]
    by_cases h : b.2 < e.2
    · rw [if_pos h]
      simp only [List.mem_cons, ih]
      tauto
    · rw [if_neg h]
      simp only [List.mem_cons]

/-- Membership is preserved by the stable sort. -/
theorem mem_sortByLen {a : Entry} :
    ∀ l : List Entry, (a ∈ sortByLen l ↔ a ∈ l) := by
  intro l
  induction l with
  | nil => simp [sortByLen]
  | cons b rest ih =>
    show a ∈ insertByLen b (sortByLen rest) ↔ _
    rw [mem_insertByLen, ih]
    simp

/-- Stable insertion preserves sortedness. -/
theorem sortedByLen_insertByLen {e : Entry} :
    ∀ l : List Entry, sortedByLen l = true →
      sortedByLen (insertByLen e l) = true := by
  intro l
  induction l with
  | nil => intro _; rfl
  | cons a rest ih =>
    intro hs
    rw [insertByLen]
    by_cases h : a.2 < e.2
    · rw [if_pos h]
      have hrest := ih (sortedByLen_tail hs)
      cases hr : insertByLen e rest with
      | nil => rfl
      | cons c tl =>
        have hc : a.2 ≤ c.2 := by
          have : c ∈ insertByLen e rest := by rw [hr]; simp
          rcases (mem_insertByLen rest).mp this with rfl | hmem
          · exact le_of_lt h
          · exact sortedByLen_head_le hs c hmem
        have hrest2 : sortedByLen (c :: tl) = true := by
          rw [← hr]; exact hrest
        rw [sortedByLen, Bool.and_eq_true, decide_eq_true_eq]
        exact ⟨hc, hrest2⟩
    · rw [if_neg h]
      rw [sortedByLen, Bool.and_eq_true, decide_eq_true_eq]
      exact ⟨not_lt.mp h, hs⟩

/-- Output of the stable sort is sorted. -/
theorem sortedByLen_sortByLen : ∀ l : List Entry,
    sortedByLen (sortByLen l) = true := by
  intro l
  induction l with
  | nil => rfl
  | cons a rest ih =>
    exact sortedByLen_insertByLen (sortByLen rest) ih

/-- Stable insertion adds one to the length. -/
theorem length_insertByLen {e : Entry} :
    ∀ l : List Entry, (insertByLen e l).length = l.length + 1 := by
  intro l
  induction l with
  | nil => rfl
  | cons a rest ih =>
    rw [insertByLen]
    by_cases h : a.2 < e.2
    · rw [if_pos h]
      simp [ih]
    · rw [if_neg h]
      simp

/-- The stable sort preserves length. -/
theorem length_sortByLen : ∀ l : List Entry,
    (sortByLen l).length = l.length := by
  intro l
  induction l with
  | nil => rfl
  | cons a rest ih =>
    show (insertByLen a (sortByLen rest)).length = _
    rw [length_insertByLen, ih]
    rfl

/-- On a sorted list, a member entry that matches makes `contains`
true. -/
theorem contains_of_specMatches {H : List Nat → String} {bl : List Entry}
    {uri : String} {e : Entry} (hs : sortedByLen bl = true) (he : e ∈ bl)
    (hm : specMatches H uri e = true) : contains H bl uri = true := by
  unfold contains index
  rw [indexFrom_eq_specIndex H uri bl hs]
  exact (specIndex_isSome_iff H uri bl).mpr ⟨e, he, hm⟩

/-- Sample digest function used to instantiate the abstract hash
parameter on concrete inputs (injective on byte lists, standing in for
`hashlib.sha1(...).hexdigest()`, whose concrete values none of the
engine's control flow depends on beyond equality of digests). -/
def demoHash : List Nat → String := fun bs => ⟨bs.map Char.ofNat⟩

/-- Value of `_hash_prefix` with `limit=None`. -/
theorem hashPfx_none (H : List Nat → String) (p : String) :
    hashPfx H p none = (H (encodeUTF8 p), (p.length : Int)) := rfl

/-- Python slice `s[:0]` is empty. -/
theorem pySlice_zero (s : String) : pySlice s (some 0) = "" := rfl

/-- Python slice `s[:len(s)]` is the whole string. -/
theorem pySlice_full (s : String) : pySlice s (some (s.length : Int)) = s := by
  cases s with
  | mk data =>
    show (if 0 ≤ ((String.mk data).length : Int)
        then String.mk (data.take ((String.mk data).length : Int).toNat)
        else String.mk
          (data.take ((String.mk data).length - (-((String.mk data).length : Int)).toNat)))
      = String.mk data
    rw [if_pos (Int.natCast_nonneg _)]
    show String.mk (data.take ((data.length : Int)).toNat) = String.mk data
    rw [Int.toNat_natCast]
    rw [List.take_length]

/-- The entry produced by hashing `p` in full always matches `p`
itself. -/
theorem specMatches_hashPfx_self (H : List Nat → String) (p : String) :
    specMatches H p (hashPfx H p none) = true := by
  rw [hashPfx_none]
  unfold specMatches
  rw [Bool.and_eq_true]
  refine ⟨decide_eq_true le_rfl, ?_⟩
  show (H (encodeUTF8 p) == (hashPfx H p (some (p.length : Int))).1) = true
  have h1 : (hashPfx H p (some (p.length : Int))).1 = H (encodeUTF8 p) := by
    unfold hashPfx
    rw [pySlice_full]
  rw [h1, beq_self_eq_true]

/-- The `prefix_length = 0` entry with the digest of the empty string
matches every uri. -/
theorem specMatches_zero (H : List Nat → String) (uri : String) :
    specMatches H uri (H (encodeUTF8 ""), 0) = true := by
  unfold specMatches
  rw [Bool.and_eq_true]
  refine ⟨decide_eq_true (Int.natCast_nonneg _), ?_⟩
  show (H (encodeUTF8 "") == (hashPfx H uri (some 0)).1) = true
  have h1 : (hashPfx H uri (some 0)).1 = H (encodeUTF8 "") := by
    unfold hashPfx
    rw [pySlice_zero]
  rw [h1, beq_self_eq_true]

/-!  Claim theorems. -/

/-- C1 (counterexample): with the blacklist containing only the entry
for `"ab"`, no stored entry equals `hash("abc")`, yet `add("abc")` still
inserts nothing — the shorter covering entry suppresses the insertion,
contradicting the claim that only an equal `(length, digest)` pair makes
`add` a no-op. -/
theorem add_covered_skips_insert :
    add demoHash (add demoHash [] "ab") "abc" = add demoHash [] "ab" ∧
    ((add demoHash [] "ab").contains (hashPfx demoHash "abc" none)) = false := by
  decide

/-- C1 (amended): `add(p)` is a no-op exactly when `p` already matches
the set (`contains(p)`), which a stored entry equal to `hash(p)` always
implies but a shorter covering entry also triggers; consequently `add`
is idempotent. -/
theorem add_noop_iff (H : List Nat → String) (bl : List Entry) (p : String) :
    (add H bl p = bl ↔ contains H bl p = true) ∧
    add H (add H bl p) p = add H bl p := by
  constructor
  · constructor
    · intro heq
      by_cases hc : contains H bl p = true
      · exact hc
      · exfalso
        unfold add at heq
        rw [if_neg hc] at heq
        have hlen := congrArg List.length heq
        rw [length_sortByLen, List.length_append] at hlen
        simp at hlen
    · intro hc
      unfold add
      rw [if_pos hc]
  · by_cases hc : contains H bl p = true
    · have h1 : add H bl p = bl := by unfold add; rw [if_pos hc]
      rw [h1]
      exact h1
    · have h1 : add H bl p = sortByLen (bl ++ [hashPfx H p none]) := by
        unfold add
        rw [if_neg hc]
      have hsorted : sortedByLen (add H bl p) = true := by
        rw [h1]
        exact sortedByLen_sortByLen _
      have hmem : hashPfx H p none ∈ add H bl p := by
        rw [h1]
        exact (mem_sortByLen _).mpr
          (List.mem_append_right bl (List.mem_singleton_self _))
      have hc2 : contains H (add H bl p) p = true :=
        contains_of_specMatches hsorted hmem (specMatches_hashPfx_self H p)
      revert hc2
      generalize add H bl p = X
      intro hc2
      unfold add
      rw [if_pos hc2]

/-- C2: on a sorted set state (the only states the program constructs),
`index(uri)` returns exactly the position of the first stored entry
`(digest, len)` with `len <= length(uri)` and
`hash(uri, limit=len) = digest` — the specification's full scan
`specIndex` — returning `none` (`IndexError`) when no entry matches, and
`contains(uri)` succeeds exactly when `index(uri)` does. -/
theorem index_eq_spec (H : List Nat → String) (bl : List Entry)
    (uri : String) (hs : sortedByLen bl = true) :
    index H bl uri = specIndex H bl uri ∧
    contains H bl uri = (specIndex H bl uri).isSome := by
  have h1 : index H bl uri = specIndex H bl uri :=
    indexFrom_eq_specIndex H uri bl hs
  refine ⟨h1, ?_⟩
  unfold contains
  rw [h1]

/-- C2 (witness): concrete sorted two-entry state. -/
theorem index_eq_spec_witness :
    sortedByLen [(demoHash [97], 1), (demoHash [98, 99], 2)] = true ∧
    (index demoHash [(demoHash [97], 1), (demoHash [98, 99], 2)] "bcd" =
      specIndex demoHash [(demoHash [97], 1), (demoHash [98, 99], 2)] "bcd" ∧
    contains demoHash [(demoHash [97], 1), (demoHash [98, 99], 2)] "bcd" =
      (specIndex demoHash [(demoHash [97], 1), (demoHash [98, 99], 2)] "bcd").isSome) :=
  ⟨by decide,
   index_eq_spec demoHash [(demoHash [97], 1), (demoHash [98, 99], 2)] "bcd"
     (by decide)⟩

/-- C3 (code evaluation at the failing input): for the one-code-point,
two-byte string `"é"` and `limit = 1`, `_hash_prefix` hashes both bytes
`[195, 169]` of the UTF-8 encoding — not the first 1 byte `[195]` — and
reports effective length 1 although 2 bytes were hashed: truncation is
performed on code points before encoding, not on encoded bytes. -/
theorem hashPfx_truncates_codepoints :
    hashPfx demoHash "é" (some 1) = (demoHash (encodeUTF8 "é"), 1) ∧
    encodeUTF8 "é" = [195, 169] ∧
    (encodeUTF8 "é").take 1 = [195] ∧
    (demoHash (encodeUTF8 "é") == demoHash [195]) = false := by decide

/-- C4 (counterexample): on a write failure `save` returns the normal
value `False` — the failure is swallowed into a return value, not
propagated as an error. -/
theorem save_swallows_failure :
    save [] WriteOutcome.ioFail = PyResult.ret false := rfl

/-- C4 (amended): `save` always returns normally — `True` exactly on a
successful write and `False` on a write failure (which it catches and
logs); no exception escapes to the caller. -/
theorem save_result (bl : List Entry) (w : WriteOutcome) :
    (save bl w = PyResult.ret true ∨ save bl w = PyResult.ret false) ∧
    save bl w = PyResult.ret (decide (w = WriteOutcome.ok)) := by
  cases w
  · exact ⟨Or.inl rfl, rfl⟩
  · exact ⟨Or.inr rfl, rfl⟩

/-- C5: `load` is atomic — the in-memory contents change only when load
returns `True` (full successful parse); in particular any parse failure
(`ValueError` on a malformed line) returns `False` with the prior
contents completely untouched. -/
theorem load_atomic (bl : List Entry) (store : Store) :
    ((load bl store).2 = bl ∨ (load bl store).1 = LoadOutcome.ret true) ∧
    ∀ lines, parseLines lines [] [] = none →
      load bl (Store.content lines) = (LoadOutcome.ret false, bl) := by
  constructor
  · cases store with
    | absent => exact Or.inl rfl
    | unreadable => exact Or.inl rfl
    | content ls =>
      cases hp : parseLines ls [] [] with
      | none => exact Or.inl (by simp [load, hp])
      | some r => exact Or.inr (by simp [load, hp])
  · intro lines hp
    simp [load, hp]

/-- C5 (witness): a populated set and a malformed store. -/
theorem load_atomic_witness :
    parseLines ["bogus\n"] [] [] = none ∧
    load [("x", 5)] (Store.content ["bogus\n"]) =
      (LoadOutcome.ret false, [("x", 5)]) :=
  ⟨by decide,
   (load_atomic [("x", 5)] (Store.content ["bogus\n"])).2 ["bogus\n"]
     (by decide)⟩

/-- C6 (counterexample): a store whose content is malformed produces a
result identical to that for an absent store — both return `False` with
the contents unchanged — so the two outcomes are conflated. -/
theorem load_conflates_malformed_and_absent :
    load [] (Store.content ["bogus line\n"]) = load [] Store.absent := by
  decide

/-- C6 (amended): `load` returns `False` without error for an absent
store; an existing but unreadable store propagates the `OSError`
(distinguishable); but an existing store with malformed content also
returns `False`, the same result as the absent-store case (distinguished
only by a logged diagnostic). -/
theorem load_outcomes (bl : List Entry) (lines : List String)
    (hp : parseLines lines [] [] = none) :
    load bl Store.absent = (LoadOutcome.ret false, bl) ∧
    load bl Store.unreadable = (LoadOutcome.ioError, bl) ∧
    load bl (Store.content lines) = (LoadOutcome.ret false, bl) := by
  refine ⟨rfl, rfl, ?_⟩
  simp [load, hp]

/-- C6 (witness): a single-field line is malformed. -/
theorem load_outcomes_witness :
    parseLines ["a\n"] [] [] = none ∧
    (load [("x", 5)] Store.absent = (LoadOutcome.ret false, [("x", 5)]) ∧
    load [("x", 5)] Store.unreadable = (LoadOutcome.ioError, [("x", 5)]) ∧
    load [("x", 5)] (Store.content ["a\n"]) =
      (LoadOutcome.ret false, [("x", 5)])) :=
  ⟨by decide, load_outcomes [("x", 5)] ["a\n"] (by decide)⟩

/-- C7 (code evaluation at the failing input): the line `"a 14"` — a
1-character digest field, the repository's own
`test_load_malformed` input — is accepted by `load`, which returns
`True` and installs the entry `("a", 14)`: digest width is never
validated.  Wrong field count and a non-integer length do fail. -/
theorem load_accepts_short_digest :
    load [] (Store.content ["a 14\n"]) = (LoadOutcome.ret true, [("a", 14)]) ∧
    load [] (Store.content
        ["765e4c4a771b301deb2c65918ce0e599cf7049e8 14 1\n"]) =
      (LoadOutcome.ret false, []) ∧
    load [] (Store.content
        ["765e4c4a771b301deb2c65918ce0e599cf7049e8 a\n"]) =
      (LoadOutcome.ret false, []) := by decide

/-- C8 (code evaluation at the failing input): a store carrying the same
`(digest, length)` line twice — the repository's own
`test_load_deduplicates` scenario — loads as two distinct identical
entries (three in total here, where the test expects two): the
`digest not in seen` duplicate check compares the bare digest against
`seen` entries of the form `"digest,count"`, so it never fires. -/
theorem load_keeps_duplicate_pairs :
    load [] (Store.content ["aa 3\n", "bb 1\n", "aa 3\n"]) =
      (LoadOutcome.ret true, [("bb", 1), ("aa", 3), ("aa", 3)]) := by decide

/-- C9: `remove_all(uri)` on a uri that matches no stored entry is a
no-op that leaves the set unchanged (the internal `ValueError` of the
first failing `remove` is caught and swallowed; `add` and `remove_all`
are total in-memory operations). -/
theorem remove_all_no_match (H : List Nat → String) (bl : List Entry)
    (uri : String) (hc : contains H bl uri = false) :
    remove_all H bl uri = bl := by
  have hidx : index H bl uri = none := by
    unfold contains at hc
    cases hI : index H bl uri with
    | none => rfl
    | some i => rw [hI] at hc; simp at hc
  rw [remove_all]
  split
  · rfl
  · next i hI => rw [hidx] at hI; cases hI

/-- C9 (witness): a non-matching query on a one-entry set. -/
theorem remove_all_no_match_witness :
    contains demoHash [(demoHash [97], 1)] "zz" = false ∧
    remove_all demoHash [(demoHash [97], 1)] "zz" = [(demoHash [97], 1)] :=
  ⟨by decide,
   remove_all_no_match demoHash [(demoHash [97], 1)] "zz" (by decide)⟩

/-- C10: after `add("")` on any sorted state with non-negative stored
lengths (any state the program can build), the set holds the
`prefix_length = 0` entry carrying the digest of the empty string, and
`contains(uri)` is true for every string `uri`, because the length-0
truncation of any uri hashes to the digest of the empty string. -/
theorem add_empty_matches_all (H : List Nat → String) (bl : List Entry)
    (uri : String) (hs : sortedByLen bl = true)
    (hnn : ∀ e ∈ bl, 0 ≤ e.2) :
    (H (encodeUTF8 ""), (0 : Int)) ∈ add H bl "" ∧
    contains H (add H bl "") uri = true := by
  by_cases hc : contains H bl "" = true
  · have hadd : add H bl "" = bl := by unfold add; rw [if_pos hc]
    have hsome : (specIndex H bl "").isSome = true := by
      unfold contains index at hc
      rw [indexFrom_eq_specIndex H "" bl hs] at hc
      exact hc
    obtain ⟨e, he, hm⟩ := (specIndex_isSome_iff H "" bl).mp hsome
    unfold specMatches at hm
    rw [Bool.and_eq_true, decide_eq_true_eq] at hm
    obtain ⟨hle, hbeq⟩ := hm
    have he0 : e.2 = 0 := le_antisymm (by simpa using hle) (hnn e he)
    have hd : e.1 = H (encodeUTF8 "") := by
      have hb := eq_of_beq hbeq
      rw [he0] at hb
      have h1 : (hashPfx H "" (some 0)).1 = H (encodeUTF8 "") := by
        unfold hashPfx
        rw [pySlice_zero]
      rw [h1] at hb
      exact hb
    have hmem : (H (encodeUTF8 ""), (0 : Int)) ∈ bl := by
      rw [← hd, ← he0]
      exact he
    refine ⟨?_, ?_⟩
    · rw [hadd]; exact hmem
    · have hs2 : sortedByLen (add H bl "") = true := by rw [hadd]; exact hs
      have hmem2 : (H (encodeUTF8 ""), (0 : Int)) ∈ add H bl "" := by
        rw [hadd]; exact hmem
      exact contains_of_specMatches hs2 hmem2 (specMatches_zero H uri)
  · have hadd : add H bl "" = sortByLen (bl ++ [hashPfx H "" none]) := by
      unfold add
      rw [if_neg hc]
    have hent : hashPfx H "" none = (H (encodeUTF8 ""), (0 : Int)) := rfl
    have hmem : (H (encodeUTF8 ""), (0 : Int)) ∈ add H bl "" := by
      rw [hadd]
      refine (mem_sortByLen _).mpr (List.mem_append_right bl ?_)
      rw [← hent]
      exact List.mem_singleton_self _
    have hsorted : sortedByLen (add H bl "") = true := by
      rw [hadd]
      exact sortedByLen_sortByLen _
    exact ⟨hmem, contains_of_specMatches hsorted hmem (specMatches_zero H uri)⟩

/-- C10 (witness): the empty starting state. -/
theorem add_empty_matches_all_witness :
    sortedByLen [] = true ∧ (∀ e ∈ ([] : List Entry), 0 ≤ e.2) ∧
    ((demoHash (encodeUTF8 ""), (0 : Int)) ∈ add demoHash [] "" ∧
    contains demoHash (add demoHash [] "") "file:///bin/sh" = true) :=
  ⟨by decide, by decide,
   add_empty_matches_all demoHash [] "file:///bin/sh" (by decide) (by decide)⟩

end Blacklist
